import Mathlib

/-!
# Verification of `DataStructures::AVLTree<T>` (src/AVLTree.h)

Shallow embedding of the AVL tree container from `src/AVLTree.h`.

Modelling conventions:
* A C++ `Node*` is a value of the inductive type `Node α`; `Node.nil` is
  `nullptr`.  A node stores its `value`, its two child pointers and the two
  bookkeeping fields `height : std::size_t` (here `Nat`) and
  `balanceFactor : int` (here `Int`).  The `parent` pointer is not stored:
  the data-model invariant says the parent link is the exact inverse of the
  child link, so it is represented implicitly by the tree structure, and the
  code's parent-pointer surgery (re-linking a parent's child slot after a
  rotation) is rendered by returning the new subtree root to the caller.
* The element type `T` is a type `α` with a `LinearOrder`; the code uses only
  `<` and `>` on values.
* In-place mutation of `this` becomes explicit state passing: a member
  function that mutates the tree takes and returns an `AVLTree α`.
* `std::size_t` arithmetic on `m_size` is modelled modulo `2 ^ 64`.
* The one exception (`std::runtime_error` in `remove`) becomes an
  `Except String` result paired with the (unchanged) tree.
-/

namespace AVLVerif

/-- Embedding of `AVLTree<T>::Node` (src/AVLTree.h lines 12-28).
`nil` is `nullptr`; `node value left right height balanceFactor` carries the
fields of the C++ struct (the non-owning `parent` back-reference is implicit
in the tree structure, see the module docstring).  A freshly constructed node
has `height = 0` and `balanceFactor = 0`. -/
inductive Node (α : Type) : Type where
  | nil : Node α
  | node (value : α) (left right : Node α) (height : Nat) (balanceFactor : Int) : Node α
deriving DecidableEq

variable {α : Type} [LinearOrder α]

/-- The height the code reads for a child slot: `-1` for `nullptr`
(src lines 275-282: `leftHeight`/`rightHeight` default to `-1` and are
overwritten with the child's stored `height` when the child exists). -/
def childHeight : Node α → Int
  | .nil => -1
  | .node _ _ _ h _ => (h : Int)

/-- The stored `balanceFactor` of a node; reading it through a null pointer
(which the C++ `balance` would only do on trees no public operation
produces) is rendered as `0`. -/
def childBF : Node α → Int
  | .nil => 0
  | .node _ _ _ _ bf => bf

/-- Embedding of `AVLTree<T>::update` (src lines 269-291): recompute the
stored `height` and `balanceFactor` of a node from its children's *stored*
heights (`-1` for an absent child):
`height = max(leftHeight, rightHeight) + 1` (written in the source as the
two-branch comparison) and `balanceFactor = (rightHeight+1) - (leftHeight+1)`. -/
def update : Node α → Node α
  | .nil => .nil
  | .node v l r _ _ =>
    let leftHeight : Int := childHeight l
    let rightHeight : Int := childHeight r
    let h : Nat :=
      if rightHeight ≥ leftHeight then (rightHeight + 1).toNat
      else (leftHeight + 1).toNat
    .node v l r h ((rightHeight + 1) - (leftHeight + 1))

/-- Embedding of `AVLTree<T>::rightRotation` (src lines 316-348).
Guards: a null node, or a node with no left child, is returned unchanged.
Otherwise with `B = A->left`: `A->left = B->right`, `B->right = A`, the
parent's child slot (or `m_root`) is re-pointed at `B` — rendered by
returning `B`'s subtree — and `update(A); update(B)` run in that order. -/
def rightRotation : Node α → Node α
  | .nil => .nil
  | .node v .nil r h bf => .node v .nil r h bf
  | .node v (.node bv bl br bh bbf) r h bf =>
    update (.node bv bl (update (.node v br r h bf)) bh bbf)

/-- Embedding of `AVLTree<T>::leftRotation` (src lines 350-383), the mirror
image of `rightRotation`, pivoting on the right child. -/
def leftRotation : Node α → Node α
  | .nil => .nil
  | .node v l .nil h bf => .node v l .nil h bf
  | .node v l (.node bv bl br bh bbf) h bf =>
    update (.node bv (update (.node v l bl h bf)) br bh bbf)

/-- Embedding of `AVLTree<T>::balance` (src lines 293-314).
If the stored balance factor is `-2`, the left child's stored balance factor
selects the left-right case (first `leftRotation` on the left child, then
`rightRotation` on the node) versus the plain right rotation; symmetrically
for `+2`.  Any other balance factor requires no action.  (When the factor is
`±2` the corresponding child is non-null in every tree the public API
produces, so the source's unguarded `node->left->balanceFactor` read is
rendered with `childBF`.) -/
def balance : Node α → Node α
  | .nil => .nil
  | .node v l r h bf =>
    if bf = -2 then
      rightRotation (.node v (if childBF l = 1 then leftRotation l else l) r h bf)
    else if bf = 2 then
      leftRotation (.node v l (if childBF r = -1 then rightRotation r else r) h bf)
    else .node v l r h bf

/-- Loop of `AVLTree<T>::stackNodes` (src lines 225-247).  The C++ stack of
`Node*` is a `List (Node α)` whose head is the stack's top.  The state on
entry to each iteration is the current top `t` plus the rest of the stack:
if `t` is null it stays pushed and the stack is returned; if its value is
greater (less) than the target the left (right) child is pushed; on an exact
match the stack is returned with the matching node on top. -/
def stackNodesLoop (value : α) : Node α → List (Node α) → List (Node α)
  | .nil, stack => .nil :: stack
  | .node v l r h bf, stack =>
    if v > value then stackNodesLoop value l (.node v l r h bf :: stack)
    else if v < value then stackNodesLoop value r (.node v l r h bf :: stack)
    else .node v l r h bf :: stack

/-- Loop of `AVLTree<T>::find` (src lines 161-180): descend comparing with
`>` and `<`; the remaining case is the match, whose stored value is returned
(`&currentNode->value` becomes `some value`); falling off the tree returns
`nullptr`, i.e. `none`.  Reading and descending only, it never mutates. -/
def findLoop : Node α → α → Option α
  | .nil, _ => none
  | .node v l r _ _, value =>
    if v > value then findLoop l value
    else if v < value then findLoop r value
    else some v

/-- Loop of the `const` overload `AVLTree<T>::find const` (src lines
182-201), a textual copy of the mutable overload's loop. -/
def findConstLoop : Node α → α → Option α
  | .nil, _ => none
  | .node v l r _ _, value =>
    if v > value then findConstLoop l value
    else if v < value then findConstLoop r value
    else some v

/-- Embedding of the container `AVLTree<T>` itself (src lines 8-70): the
stored node count `m_size : std::size_t` and the owning root pointer
`m_root`. -/
structure AVLTree (α : Type) : Type where
  m_size : Nat
  m_root : Node α
deriving DecidableEq

/-- The default constructor `AVLTree()` (src lines 72-74): `m_size = 0`,
`m_root = nullptr`. -/
def emptyAVLTree : AVLTree α := ⟨0, .nil⟩

/-- `AVLTree<T>::empty` (src lines 203-207): literally
`m_root == nullptr && m_size == 0`. -/
def AVLTree.empty (tree : AVLTree α) : Bool :=
  (match tree.m_root with | .nil => true | .node _ _ _ _ _ => false)
    && tree.m_size == 0

/-- `AVLTree<T>::size` (src line 46): returns `m_size`. -/
def AVLTree.size (tree : AVLTree α) : Nat := tree.m_size

/-- `AVLTree<T>::root` and its `const` overload (src lines 209-223): a
pointer to the root node's value, or `nullptr` when the tree is empty. -/
def AVLTree.root (tree : AVLTree α) : Option α :=
  match tree.m_root with
  | .nil => none
  | .node v _ _ _ _ => some v

/-- `AVLTree<T>::stackNodes` (src lines 225-247): push `m_root`, then run the
descent loop.  The body only reads `value`, `left` and `right` fields and
pushes pointers, so the traversal is read-only: in the embedding it is a pure
function of the tree, which is returned to the caller untouched. -/
def AVLTree.stackNodes (tree : AVLTree α) (value : α) : List (Node α) :=
  stackNodesLoop value tree.m_root []

/-- One ancestor-chain entry as the rebalancing pass needs it: the fields of
an ancestor node together with which child slot (`holeLeft`) the descent
left through and the subtree in the *other* slot.  A C++ stack entry is the
pointer to the ancestor; since rotations below it re-link its child slot in
place, the functional rendering keeps the ancestor's other components and
re-plugs the current (possibly rotated) child when the entry is processed. -/
structure Frame (α : Type) : Type where
  value : α
  holeLeft : Bool
  sibling : Node α
  height : Nat
  balanceFactor : Int
deriving DecidableEq

/-- Rebuild an ancestor node from its frame and the current content of the
child slot the descent went through. -/
def plugFrame (f : Frame α) (child : Node α) : Node α :=
  if f.holeLeft then .node f.value child f.sibling f.height f.balanceFactor
  else .node f.value f.sibling child f.height f.balanceFactor

/-- The descent of `stackNodes` in the frame representation used by the
mutating operations: same comparisons and stopping conditions as
`stackNodesLoop`, but each traversed ancestor is recorded as a `Frame`
(deepest first, like the stack's top).  Returns the ancestor frames and the
final top: the matching node, or `nil` for the null slot where the value
would be inserted. -/
def pathToSlot (value : α) : Node α → List (Frame α) → List (Frame α) × Node α
  | .nil, frames => (frames, .nil)
  | .node v l r h bf, frames =>
    if v > value then pathToSlot value l (⟨v, true, r, h, bf⟩ :: frames)
    else if v < value then pathToSlot value r (⟨v, false, l, h, bf⟩ :: frames)
    else (frames, .node v l r h bf)

/-- The leaf attachment step of `insert` (src lines 115-127): compare the
parent's value with the new value and place `new Node{newValue}` (height 0,
balance factor 0, parent link set) in the corresponding child slot.  If
neither comparison fires nothing is attached, exactly as in the source
(that case is unreachable: the descent stopped at a null slot). -/
def attachLeaf : Node α → α → Node α
  | .nil, _ => .nil
  | .node v l r h bf, newValue =>
    if v > newValue then .node v (.node newValue .nil .nil 0 0) r h bf
    else if v < newValue then .node v l (.node newValue .nil .nil 0 0) h bf
    else .node v l r h bf

/-- Embedding of `AVLTree<T>::unstackNodes` (src lines 249-267) as used with
a non-empty stack whose top is a real node: pop each node bottom-up, running
`update` then `balance` on it; a rotation performed by `balance` re-links
the next ancestor's child slot in place, rendered here by plugging the
result into the next frame before that frame is processed in its turn.
(The source's leading-`nullptr` skip never fires on these stacks: `insert`
pops the null top before calling, and the remaining entries are real
nodes.) -/
def unstackNodes : List (Frame α) → Node α → Node α
  | [], top => balance (update top)
  | f :: rest, top => unstackNodes rest (plugFrame f (balance (update top)))

/-- Embedding of `AVLTree<T>::insert` (src lines 100-132).
Empty tree: the new node becomes `m_root` and the function returns
immediately — the source returns *without* incrementing `m_size` on this
path (src lines 103-107).  Otherwise run the Path Locator; a non-null top
means the value already exists and a pointer to the stored value is
returned with no structural change.  Otherwise pop the null top, attach the
new leaf under the new top (the parent), run `unstackNodes` on the
remaining chain and increment `m_size` (`std::size_t`, modelled mod
`2 ^ 64`).  Returns `none` (`nullptr`) for a successful insertion. -/
def AVLTree.insert (tree : AVLTree α) (newValue : α) : AVLTree α × Option α :=
  match tree.m_root with
  | .nil => ({ tree with m_root := .node newValue .nil .nil 0 0 }, none)
  | .node v0 l0 r0 h0 bf0 =>
    let fs := pathToSlot newValue (.node v0 l0 r0 h0 bf0) []
    match fs.2 with
    | .node w _ _ _ _ => (tree, some w)
    | .nil =>
      match fs.1 with
      -- unreachable: the root is non-null, so the descent recorded at least
      -- one ancestor before reaching the null slot
      | [] => (tree, none)
      | f :: rest =>
        ({ m_size := (tree.m_size + 1) % 2 ^ 64,
           m_root := unstackNodes rest (attachLeaf (plugFrame f .nil) newValue) },
         none)

/-- Process an ancestor chain upward starting *above* the current subtree:
plug the subtree into the next frame, `update` and `balance` it, continue.
`unstackNodes frames top` equals `rebalancePath frames (balance (update top))`
(proved below); `rebalancePath` is also how the removal helpers' "rebalance
starts at the (former) parent" reads in the frame representation. -/
def rebalancePath : List (Frame α) → Node α → Node α
  | [], t => t
  | f :: rest, t => rebalancePath rest (balance (update (plugFrame f t)))

/-- Modelled from the spec: `AVLTree<T>::leafRemove` is declared (src line
66) but src/AVLTree.h truncates before its definition.  Spec §4.3, leaf
case: detach the leaf from its parent's corresponding slot (or clear the
root), then rebalance starting at its former parent. -/
def leafRemove (frames : List (Frame α)) : Node α :=
  rebalancePath frames .nil

/-- Modelled from the spec: `AVLTree<T>::oneSubtreeRemove` is declared (src
line 67) but src/AVLTree.h truncates before its definition.  Spec §4.3,
one-child case: splice the single child into the removed node's position,
then rebalance starting at the spliced child's new parent. -/
def oneSubtreeRemove (frames : List (Frame α)) (child : Node α) : Node α :=
  rebalancePath frames child

/-- Modelled from the spec: helper for the two-children case — locate and
excise the in-order predecessor (the rightmost node of a subtree), returning
its value and the subtree with that node removed, rebalancing bottom-up on
the way back (the excised node has no right child, so its left child is
spliced into its place). -/
def removeMax : Node α → Option (α × Node α)
  | .nil => none
  | .node v l r h bf =>
    match removeMax r with
    | none => some (v, l)
    | some (m, r2) => some (m, balance (update (.node v l r2 h bf)))

/-- Modelled from the spec: `AVLTree<T>::twoSubtreeRemove` is declared (src
line 68) but src/AVLTree.h truncates before its definition.  Spec §4.3,
two-children case, using the in-order predecessor convention: copy the
rightmost value of the left subtree into the node being removed, excise the
now-duplicated descendant (a leaf or one-child node), and rebalance from the
excision site up through the node and its ancestors. -/
def twoSubtreeRemove (frames : List (Frame α)) (value : α) (l r : Node α)
    (h : Nat) (bf : Int) : Node α :=
  match removeMax l with
  | none => rebalancePath frames (.node value l r h bf)
  | some (m, l2) => rebalancePath frames (balance (update (.node m l2 r h bf)))

/-- Embedding of `AVLTree<T>::remove` (src lines 134-159).  Run the Path
Locator; if the top is null, throw
`std::runtime_error{"AVLTree remove(), cannot remove value, value does not
exist"}` — rendered as an `Except.error` paired with the tree, which at that
point has not been touched.  Otherwise save the node's value, dispatch on
its child count (leaf / one subtree / two subtrees) to the corresponding
helper, decrement `m_size` (`std::size_t`, modelled mod `2 ^ 64`) and return
the saved value. -/
def AVLTree.remove (tree : AVLTree α) (value : α) : AVLTree α × Except String α :=
  let fs := pathToSlot value tree.m_root []
  match fs.2 with
  | .nil =>
    (tree, .error "AVLTree remove(), cannot remove value, value does not exist")
  | .node v l r h bf =>
    let nodeValue := v
    let newRoot :=
      match l, r with
      | .nil, .nil => leafRemove fs.1
      | .nil, .node rv rl rr rh rbf => oneSubtreeRemove fs.1 (.node rv rl rr rh rbf)
      | .node lv ll lr lh lbf, .nil => oneSubtreeRemove fs.1 (.node lv ll lr lh lbf)
      | .node lv ll lr lh lbf, .node rv rl rr rh rbf =>
        twoSubtreeRemove fs.1 v (.node lv ll lr lh lbf) (.node rv rl rr rh rbf) h bf
    ({ m_size := (tree.m_size + (2 ^ 64 - 1)) % 2 ^ 64, m_root := newRoot },
     .ok nodeValue)

/-- `AVLTree<T>::find` (src lines 161-180): run the descent loop from
`m_root`. -/
def AVLTree.find (tree : AVLTree α) (value : α) : Option α :=
  findLoop tree.m_root value

/-- The `const` overload of `AVLTree<T>::find` (src lines 182-201). -/
def AVLTree.findConst (tree : AVLTree α) (value : α) : Option α :=
  findConstLoop tree.m_root value

/-- The tree after a sequence of public `insert` calls starting from a
freshly constructed empty tree (each call's returned pointer is discarded). -/
def insertAll (vs : List α) : AVLTree α :=
  vs.foldl (fun t v => (t.insert v).1) emptyAVLTree

/-! ## Specification layer -/

/-- In-order traversal of the node values. -/
def toList : Node α → List α
  | .nil => []
  | .node v l r _ _ => toList l ++ v :: toList r

/-- Number of nodes actually present in a subtree. -/
def countNodes : Node α → Nat
  | .nil => 0
  | .node _ l r _ _ => countNodes l + countNodes r + 1

/-- The true height of a subtree: `-1` for an absent tree, longest path to a
leaf otherwise (the convention of the data model). -/
def realHeight : Node α → Int
  | .nil => -1
  | .node _ l r _ _ => 1 + max (realHeight l) (realHeight r)

/-- Binary-search-tree order: at every node all values in the left subtree
compare less than the node's value and all values in the right subtree
compare greater. -/
def Ordered : Node α → Prop
  | .nil => True
  | .node v l r _ _ =>
    (∀ x ∈ toList l, x < v) ∧ (∀ x ∈ toList r, v < x) ∧ Ordered l ∧ Ordered r

instance Ordered.instDecidable : (t : Node α) → Decidable (Ordered t)
  | .nil => .isTrue trivial
  | .node _ l r _ _ =>
    have : Decidable (Ordered l) := Ordered.instDecidable l
    have : Decidable (Ordered r) := Ordered.instDecidable r
    inferInstanceAs (Decidable (_ ∧ _ ∧ _ ∧ _))

/-- The stored bookkeeping fields are correct and the tree is AVL-balanced:
at every node the stored `height` is the true height, the stored
`balanceFactor` is the true height difference, and that difference lies in
`{-1, 0, 1}`. -/
def WellFormed : Node α → Prop
  | .nil => True
  | .node _ l r h bf =>
    WellFormed l ∧ WellFormed r ∧
    (h : Int) = 1 + max (realHeight l) (realHeight r) ∧
    bf = realHeight r - realHeight l ∧
    -1 ≤ bf ∧ bf ≤ 1

/-- Every node's *stored* `balanceFactor` lies in `{-1, 0, 1}` (the property
claimed of trees built by the public API). -/
def bfOk : Node α → Prop
  | .nil => True
  | .node _ l r _ bf => (bf = -1 ∨ bf = 0 ∨ bf = 1) ∧ bfOk l ∧ bfOk r

/-- Recursive restatement of the composite
`stackNodes` / pop / attach-leaf / `unstackNodes` control flow of `insert`
(src lines 109-131), used to reason by structural induction: descending into
a child and later popping the parent off the stack becomes a recursive call
followed by `balance (update ·)` on the re-plugged parent; finding the value
returns it with no structural change; reaching the null slot creates the
leaf.  `afterPath_spec` below proves this agrees with the
`pathToSlot`/`unstackNodes` composition that `AVLTree.insert` performs. -/
def insertCore (newValue : α) : Node α → Node α × Option α
  | .nil => (.node newValue .nil .nil 0 0, none)
  | .node v l r h bf =>
    if v > newValue then
      match insertCore newValue l with
      | (l2, none) => (balance (update (.node v l2 r h bf)), none)
      | (_, some x) => (.node v l r h bf, some x)
    else if v < newValue then
      match insertCore newValue r with
      | (r2, none) => (balance (update (.node v l r2 h bf)), none)
      | (_, some x) => (.node v l r h bf, some x)
    else (.node v l r h bf, some v)

/-- Proof-layer restatement of what `AVLTree.insert` does after the descent:
from the `pathToSlot` result, either the match's stored value (second
component), or the rebuilt root after attaching the new leaf and running
`unstackNodes` (first component). -/
def afterPath (newValue : α) : List (Frame α) × Node α → Option (Node α) × Option α
  | (frames, top) =>
    match top with
    | .node w _ _ _ _ => (none, some w)
    | .nil =>
      match frames with
      | [] => (none, none)
      | f :: rest =>
        (some (unstackNodes rest (attachLeaf (plugFrame f .nil) newValue)), none)

/-! ## Heights and stored fields -/

theorem neg_one_le_realHeight (t : Node α) : -1 ≤ realHeight t := by
  induction t with
  | nil => simp [realHeight]
  | node v l r h bf ihl ihr => simp only [realHeight]; omega

theorem realHeight_node (v : α) (l r : Node α) (h : Nat) (bf : Int) :
    realHeight (.node v l r h bf) = 1 + max (realHeight l) (realHeight r) := rfl

theorem childHeight_mk (v : α) (l r : Node α) (bf : Int) {n : Int} (hn : 0 ≤ n) :
    childHeight (.node v l r n.toNat bf) = n := by
  simp [childHeight, Int.toNat_of_nonneg hn]

theorem childHeight_of_wf {t : Node α} (hw : WellFormed t) :
    childHeight t = realHeight t := by
  cases t with
  | nil => rfl
  | node v l r h bf =>
    obtain ⟨-, -, hh, -⟩ := hw
    simp [childHeight, realHeight, hh]

theorem update_eq {v : α} {l r : Node α} {h : Nat} {bf : Int}
    (hl : childHeight l = realHeight l) (hr : childHeight r = realHeight r) :
    update (.node v l r h bf) =
      .node v l r (1 + max (realHeight l) (realHeight r)).toNat
        (realHeight r - realHeight l) := by
  have h1 := neg_one_le_realHeight l
  have h2 := neg_one_le_realHeight r
  simp only [update, hl, hr]
  split <;> (simp only [Node.node.injEq, true_and]; exact ⟨by omega, by omega⟩)

theorem rightRotation_eq {v bv : α} {bl br r : Node α} {bh h : Nat} {bbf bf : Int}
    (hbl : childHeight bl = realHeight bl) (hbr : childHeight br = realHeight br)
    (hr : childHeight r = realHeight r) :
    rightRotation (.node v (.node bv bl br bh bbf) r h bf) =
      .node bv bl
        (.node v br r (1 + max (realHeight br) (realHeight r)).toNat
          (realHeight r - realHeight br))
        (1 + max (realHeight bl) (1 + max (realHeight br) (realHeight r))).toNat
        ((1 + max (realHeight br) (realHeight r)) - realHeight bl) := by
  have h1 := neg_one_le_realHeight br
  have h2 := neg_one_le_realHeight r
  simp only [rightRotation]
  rw [update_eq hbr hr]
  rw [update_eq hbl (by
    rw [childHeight_mk _ _ _ _ (by omega), realHeight_node])]
  rw [realHeight_node]

theorem leftRotation_eq {v bv : α} {l bl br : Node α} {bh h : Nat} {bbf bf : Int}
    (hl : childHeight l = realHeight l) (hbl : childHeight bl = realHeight bl)
    (hbr : childHeight br = realHeight br) :
    leftRotation (.node v l (.node bv bl br bh bbf) h bf) =
      .node bv
        (.node v l bl (1 + max (realHeight l) (realHeight bl)).toNat
          (realHeight bl - realHeight l))
        br
        (1 + max (1 + max (realHeight l) (realHeight bl)) (realHeight br)).toNat
        (realHeight br - (1 + max (realHeight l) (realHeight bl))) := by
  have h1 := neg_one_le_realHeight l
  have h2 := neg_one_le_realHeight bl
  simp only [leftRotation]
  rw [update_eq hl hbl]
  rw [update_eq (by
    rw [childHeight_mk _ _ _ _ (by omega), realHeight_node]) hbr]
  rw [realHeight_node]

/-! ## Traversal lists -/

theorem toList_update (t : Node α) : toList (update t) = toList t := by
  cases t <;> rfl

theorem realHeight_update (t : Node α) : realHeight (update t) = realHeight t := by
  cases t <;> rfl

theorem toList_rightRotation (t : Node α) : toList (rightRotation t) = toList t := by
  match t with
  | .nil => rfl
  | .node v .nil r h bf => rfl
  | .node v (.node bv bl br bh bbf) r h bf =>
    simp [rightRotation, toList, toList_update, List.append_assoc]

theorem toList_leftRotation (t : Node α) : toList (leftRotation t) = toList t := by
  match t with
  | .nil => rfl
  | .node v l .nil h bf => rfl
  | .node v l (.node bv bl br bh bbf) h bf =>
    simp [leftRotation, toList, toList_update, List.append_assoc]

theorem toList_balance (t : Node α) : toList (balance t) = toList t := by
  match t with
  | .nil => rfl
  | .node v l r h bf =>
    simp only [balance]
    rcases eq_or_ne bf (-2) with hbf | hbf
    · simp only [if_pos hbf, toList_rightRotation, toList]
      congr 1
      split
      · rw [toList_leftRotation]
      · rfl
    · rw [if_neg hbf]
      rcases eq_or_ne bf 2 with hbf2 | hbf2
      · simp only [if_pos hbf2, toList_leftRotation, toList]
        congr 2
        split
        · rw [toList_rightRotation]
        · rfl
      · rw [if_neg hbf2]

theorem toList_balance_update (v : α) (l r : Node α) (h : Nat) (bf : Int) :
    toList (balance (update (.node v l r h bf))) = toList l ++ v :: toList r := by
  rw [toList_balance, toList_update]
  rfl

theorem ordered_iff_pairwise (t : Node α) :
    Ordered t ↔ (toList t).Pairwise (· < ·) := by
  induction t with
  | nil => simp [Ordered, toList]
  | node v l r h bf ihl ihr =>
    simp only [Ordered, toList, List.pairwise_append, List.pairwise_cons,
      List.mem_cons, ihl, ihr]
    constructor
    · rintro ⟨h1, h2, hl3, hr3⟩
      refine ⟨hl3, ⟨h2, hr3⟩, fun x hx y hy => ?_⟩
      rcases hy with rfl | hy
      · exact h1 x hx
      · exact lt_trans (h1 x hx) (h2 y hy)
    · rintro ⟨hl3, ⟨h2, hr3⟩, hcross⟩
      exact ⟨fun x hx => hcross x hx v (Or.inl rfl), h2, hl3, hr3⟩

/-! ## The stack-based insert agrees with the recursive restatement -/

theorem pathToSlot_gt {newValue v : α} (l r : Node α) (h : Nat) (bf : Int)
    (frames : List (Frame α)) (hgt : v > newValue) :
    pathToSlot newValue (.node v l r h bf) frames
      = pathToSlot newValue l (⟨v, true, r, h, bf⟩ :: frames) := by
  simp [pathToSlot, hgt]

theorem pathToSlot_lt {newValue v : α} (l r : Node α) (h : Nat) (bf : Int)
    (frames : List (Frame α)) (hgt : ¬ v > newValue) (hlt : v < newValue) :
    pathToSlot newValue (.node v l r h bf) frames
      = pathToSlot newValue r (⟨v, false, l, h, bf⟩ :: frames) := by
  simp [pathToSlot, hgt, hlt]

theorem pathToSlot_found {newValue v : α} (l r : Node α) (h : Nat) (bf : Int)
    (frames : List (Frame α)) (hgt : ¬ v > newValue) (hlt : ¬ v < newValue) :
    pathToSlot newValue (.node v l r h bf) frames = (frames, .node v l r h bf) := by
  simp [pathToSlot, hgt, hlt]

theorem insertCore_gt_none {newValue v : α} {l : Node α} (r : Node α) (h : Nat)
    (bf : Int) {l2 : Node α} (hgt : v > newValue)
    (hic : insertCore newValue l = (l2, none)) :
    insertCore newValue (.node v l r h bf)
      = (balance (update (.node v l2 r h bf)), none) := by
  simp [insertCore, hgt, hic]

theorem insertCore_gt_some {newValue v : α} {l : Node α} (r : Node α) (h : Nat)
    (bf : Int) {l2 : Node α} {x : α} (hgt : v > newValue)
    (hic : insertCore newValue l = (l2, some x)) :
    insertCore newValue (.node v l r h bf) = (.node v l r h bf, some x) := by
  simp [insertCore, hgt, hic]

theorem insertCore_lt_none {newValue v : α} (l : Node α) {r : Node α} (h : Nat)
    (bf : Int) {r2 : Node α} (hgt : ¬ v > newValue) (hlt : v < newValue)
    (hic : insertCore newValue r = (r2, none)) :
    insertCore newValue (.node v l r h bf)
      = (balance (update (.node v l r2 h bf)), none) := by
  simp [insertCore, hgt, hlt, hic]

theorem insertCore_lt_some {newValue v : α} (l : Node α) {r : Node α} (h : Nat)
    (bf : Int) {r2 : Node α} {x : α} (hgt : ¬ v > newValue) (hlt : v < newValue)
    (hic : insertCore newValue r = (r2, some x)) :
    insertCore newValue (.node v l r h bf) = (.node v l r h bf, some x) := by
  simp [insertCore, hgt, hlt, hic]

theorem insertCore_found {newValue v : α} (l r : Node α) (h : Nat) (bf : Int)
    (hgt : ¬ v > newValue) (hlt : ¬ v < newValue) :
    insertCore newValue (.node v l r h bf) = (.node v l r h bf, some v) := by
  simp [insertCore, hgt, hlt]

theorem unstackNodes_eq (frames : List (Frame α)) (top : Node α) :
    unstackNodes frames top = rebalancePath frames (balance (update top)) := by
  induction frames generalizing top with
  | nil => rfl
  | cons f rest ih => simp [unstackNodes, rebalancePath, ih]

theorem afterPath_spec (newValue : α) (t : Node α) :
    ∀ frames : List (Frame α), t ≠ .nil →
    afterPath newValue (pathToSlot newValue t frames) =
      (match insertCore newValue t with
       | (t2, none) => (some (rebalancePath frames t2), none)
       | (_, some x) => (none, some x)) := by
  induction t with
  | nil => exact fun frames hne => absurd rfl hne
  | node v l r h bf ihl ihr =>
    intro frames hne
    by_cases hgt : v > newValue
    · rw [pathToSlot_gt l r h bf frames hgt]
      cases l with
      | nil =>
        rw [insertCore_gt_none r h bf hgt rfl]
        simp [pathToSlot, afterPath, unstackNodes_eq, plugFrame, attachLeaf, hgt]
      | node lv ll lr lh lbf =>
        rw [ihl _ (by simp)]
        cases hic : insertCore newValue (.node lv ll lr lh lbf) with
        | mk l2 res =>
          cases res with
          | none =>
            rw [insertCore_gt_none r h bf hgt hic]
            simp [rebalancePath, plugFrame]
          | some x =>
            rw [insertCore_gt_some r h bf hgt hic]
    · by_cases hlt : v < newValue
      · rw [pathToSlot_lt l r h bf frames hgt hlt]
        cases r with
        | nil =>
          rw [insertCore_lt_none l h bf hgt hlt rfl]
          simp [pathToSlot, afterPath, unstackNodes_eq, plugFrame, attachLeaf,
            hgt, hlt]
        | node rv rl rr rh rbf =>
          rw [ihr _ (by simp)]
          cases hic : insertCore newValue (.node rv rl rr rh rbf) with
          | mk r2 res =>
            cases res with
            | none =>
              rw [insertCore_lt_none l h bf hgt hlt hic]
              simp [rebalancePath, plugFrame]
            | some x =>
              rw [insertCore_lt_some l h bf hgt hlt hic]
      · rw [pathToSlot_found l r h bf frames hgt hlt,
          insertCore_found l r h bf hgt hlt]
        rfl

theorem insert_eq_core (tree : AVLTree α) (newValue : α)
    (hroot : tree.m_root ≠ .nil) :
    tree.insert newValue =
      (match insertCore newValue tree.m_root with
       | (t2, none) => ({ m_size := (tree.m_size + 1) % 2 ^ 64, m_root := t2 }, none)
       | (_, some x) => (tree, some x)) := by
  obtain ⟨sz, root⟩ := tree
  cases root with
  | nil => exact absurd rfl hroot
  | node v0 l0 r0 h0 bf0 =>
    have hspec := afterPath_spec newValue (.node v0 l0 r0 h0 bf0) [] (by simp)
    cases hic : insertCore newValue (.node v0 l0 r0 h0 bf0) with
    | mk t2 res =>
      rw [hic] at hspec
      cases hp : pathToSlot newValue (.node v0 l0 r0 h0 bf0) [] with
      | mk fs top =>
        rw [hp] at hspec
        cases top with
        | node w wl wr wh wbf =>
          cases res with
          | none => simp [afterPath] at hspec
          | some x =>
            simp only [afterPath, Prod.mk.injEq, Option.some.injEq] at hspec
            simp [AVLTree.insert, hp, hic, hspec.2]
        | nil =>
          cases fs with
          | nil => cases res <;> simp [afterPath] at hspec
          | cons f rest =>
            cases res with
            | some x => simp [afterPath] at hspec
            | none =>
              simp only [afterPath, rebalancePath, Prod.mk.injEq,
                Option.some.injEq] at hspec
              simp [AVLTree.insert, hp, hic, hspec.1]

/-! ## `balance (update ·)` restores well-formedness -/

theorem wellFormed_nil : WellFormed (.nil : Node α) := trivial

theorem wellFormed_node {v : α} {l r : Node α} {h : Nat} {bf : Int} :
    WellFormed (.node v l r h bf) ↔
      WellFormed l ∧ WellFormed r ∧
      (h : Int) = 1 + max (realHeight l) (realHeight r) ∧
      bf = realHeight r - realHeight l ∧
      -1 ≤ bf ∧ bf ≤ 1 := Iff.rfl

theorem balance_update_wf (v : α) {l r : Node α} (h : Nat) (bf : Int)
    (hwl : WellFormed l) (hwr : WellFormed r)
    (hd1 : -2 ≤ realHeight r - realHeight l)
    (hd2 : realHeight r - realHeight l ≤ 2) :
    WellFormed (balance (update (.node v l r h bf))) ∧
      (realHeight (balance (update (.node v l r h bf)))
          = 1 + max (realHeight l) (realHeight r) ∨
        (realHeight (balance (update (.node v l r h bf)))
            = max (realHeight l) (realHeight r) ∧
          (realHeight r - realHeight l = -2 ∨ realHeight r - realHeight l = 2))) := by
  have g1 := neg_one_le_realHeight l
  have g2 := neg_one_le_realHeight r
  rw [update_eq (childHeight_of_wf hwl) (childHeight_of_wf hwr)]
  by_cases hm2 : realHeight r - realHeight l = -2
  · -- left heavy
    have hbal : balance (.node v l r (1 + max (realHeight l) (realHeight r)).toNat
          (realHeight r - realHeight l))
        = rightRotation (.node v (if childBF l = 1 then leftRotation l else l) r
            (1 + max (realHeight l) (realHeight r)).toNat
            (realHeight r - realHeight l)) := by
      simp [balance, hm2]
    rw [hbal]
    cases l with
    | nil =>
      exfalso
      simp only [realHeight] at hm2
      omega
    | node lv bl br lh lbf =>
      rw [wellFormed_node] at hwl
      obtain ⟨hwbl, hwbr, hlh, hlbf, hlb1, hlb2⟩ := hwl
      have gbl := neg_one_le_realHeight bl
      have gbr := neg_one_le_realHeight br
      by_cases hlr : lbf = 1
      · -- left-right double rotation
        rw [show childBF (.node lv bl br lh lbf) = lbf from rfl, if_pos hlr]
        cases br with
        | nil =>
          exfalso
          simp only [realHeight] at hlbf
          omega
        | node bv2 c1 c2 ch2 cbf2 =>
          rw [wellFormed_node] at hwbr
          obtain ⟨hwc1, hwc2, hch2, hcbf2, hcb1, hcb2⟩ := hwbr
          have gc1 := neg_one_le_realHeight c1
          have gc2 := neg_one_le_realHeight c2
          rw [leftRotation_eq (childHeight_of_wf hwbl) (childHeight_of_wf hwc1)
            (childHeight_of_wf hwc2)]
          rw [rightRotation_eq (by
              rw [childHeight_mk _ _ _ _ (by omega), realHeight_node])
            (childHeight_of_wf hwc2) (childHeight_of_wf hwr)]
          simp only [realHeight_node, wellFormed_node] at hm2 hlh hlbf ⊢
          refine ⟨⟨⟨hwbl, hwc1, by omega, trivial, by omega, by omega⟩,
            ⟨hwc2, hwr, by omega, trivial, by omega, by omega⟩,
            by omega, trivial, by omega, by omega⟩,
            Or.inr ⟨by omega, Or.inl (by omega)⟩⟩
      · -- left-left single rotation
        rw [show childBF (.node lv bl br lh lbf) = lbf from rfl, if_neg hlr]
        rw [rightRotation_eq (childHeight_of_wf hwbl) (childHeight_of_wf hwbr)
          (childHeight_of_wf hwr)]
        simp only [realHeight_node, wellFormed_node] at hm2 hlh hlbf ⊢
        have hcase : lbf = -1 ∨ lbf = 0 := by omega
        refine ⟨⟨hwbl, ⟨hwbr, hwr, by omega, trivial, by omega, by omega⟩,
          by omega, trivial, by omega, by omega⟩, ?_⟩
        rcases hcase with h1 | h1
        · exact Or.inr ⟨by omega, Or.inl (by omega)⟩
        · exact Or.inl (by omega)
  · by_cases hp2 : realHeight r - realHeight l = 2
    · -- right heavy
      have hbal : balance (.node v l r (1 + max (realHeight l) (realHeight r)).toNat
            (realHeight r - realHeight l))
          = leftRotation (.node v l (if childBF r = -1 then rightRotation r else r)
              (1 + max (realHeight l) (realHeight r)).toNat
              (realHeight r - realHeight l)) := by
        simp [balance, hm2, hp2]
      rw [hbal]
      cases r with
      | nil =>
        exfalso
        simp only [realHeight] at hp2
        omega
      | node rv rl rr rh rbf =>
        rw [wellFormed_node] at hwr
        obtain ⟨hwrl, hwrr, hrh, hrbf, hrb1, hrb2⟩ := hwr
        have grl := neg_one_le_realHeight rl
        have grr := neg_one_le_realHeight rr
        by_cases hrl2 : rbf = -1
        · -- right-left double rotation
          rw [show childBF (.node rv rl rr rh rbf) = rbf from rfl, if_pos hrl2]
          cases rl with
          | nil =>
            exfalso
            simp only [realHeight] at hrbf
            omega
          | node dv d1 d2 dh dbf =>
            rw [wellFormed_node] at hwrl
            obtain ⟨hwd1, hwd2, hdh, hdbf, hdb1, hdb2⟩ := hwrl
            have gd1 := neg_one_le_realHeight d1
            have gd2 := neg_one_le_realHeight d2
            rw [rightRotation_eq (childHeight_of_wf hwd1) (childHeight_of_wf hwd2)
              (childHeight_of_wf hwrr)]
            rw [leftRotation_eq (childHeight_of_wf hwl) (childHeight_of_wf hwd1)
              (by rw [childHeight_mk _ _ _ _ (by omega), realHeight_node])]
            simp only [realHeight_node, wellFormed_node] at hp2 hrh hrbf ⊢
            refine ⟨⟨⟨hwl, hwd1, by omega, trivial, by omega, by omega⟩,
              ⟨hwd2, hwrr, by omega, trivial, by omega, by omega⟩,
              by omega, trivial, by omega, by omega⟩,
              Or.inr ⟨by omega, Or.inr (by omega)⟩⟩
        · -- right-right single rotation
          rw [show childBF (.node rv rl rr rh rbf) = rbf from rfl, if_neg hrl2]
          rw [leftRotation_eq (childHeight_of_wf hwl) (childHeight_of_wf hwrl)
            (childHeight_of_wf hwrr)]
          simp only [realHeight_node, wellFormed_node] at hp2 hrh hrbf ⊢
          have hcase : rbf = 1 ∨ rbf = 0 := by omega
          refine ⟨⟨⟨hwl, hwrl, by omega, trivial, by omega, by omega⟩, hwrr,
            by omega, trivial, by omega, by omega⟩, ?_⟩
          rcases hcase with h1 | h1
          · exact Or.inr ⟨by omega, Or.inr (by omega)⟩
          · exact Or.inl (by omega)
    · -- no rotation
      have hbal : balance (.node v l r (1 + max (realHeight l) (realHeight r)).toNat
            (realHeight r - realHeight l))
          = .node v l r (1 + max (realHeight l) (realHeight r)).toNat
              (realHeight r - realHeight l) := by
        simp [balance, hm2, hp2]
      rw [hbal]
      refine ⟨?_, Or.inl (by simp [realHeight_node])⟩
      rw [wellFormed_node]
      exact ⟨hwl, hwr, by omega, rfl, by omega, by omega⟩

/-! ## Insert preserves the AVL invariants -/

theorem ordered_node {v : α} {l r : Node α} {h : Nat} {bf : Int} :
    Ordered (.node v l r h bf) ↔
      (∀ x ∈ toList l, x < v) ∧ (∀ x ∈ toList r, v < x) ∧
      Ordered l ∧ Ordered r := Iff.rfl

theorem insertCore_wf (newValue : α) (t : Node α) (hw : WellFormed t) :
    WellFormed (insertCore newValue t).1 ∧
      (realHeight (insertCore newValue t).1 = realHeight t ∨
        realHeight (insertCore newValue t).1 = realHeight t + 1) := by
  induction t with
  | nil =>
    refine ⟨?_, Or.inr (by simp [insertCore, realHeight])⟩
    simp only [insertCore]
    rw [wellFormed_node]
    refine ⟨trivial, trivial, ?_, ?_, ?_, ?_⟩ <;> simp [realHeight]
  | node v l r h bf ihl ihr =>
    rw [wellFormed_node] at hw
    obtain ⟨hwl, hwr, hh, hbf, hb1, hb2⟩ := hw
    by_cases hgt : v > newValue
    · cases hic : insertCore newValue l with
      | mk l2 res =>
        cases res with
        | some x =>
          rw [insertCore_gt_some r h bf hgt hic]
          exact ⟨by rw [wellFormed_node]; exact ⟨hwl, hwr, hh, hbf, hb1, hb2⟩,
            Or.inl rfl⟩
        | none =>
          rw [insertCore_gt_none r h bf hgt hic]
          have ih := ihl hwl
          rw [hic] at ih
          dsimp only at ih
          obtain ⟨hwl2, hgrow⟩ := ih
          obtain ⟨hwf, hht⟩ :=
            balance_update_wf v h bf hwl2 hwr (by omega) (by omega)
          refine ⟨hwf, ?_⟩
          simp only [realHeight_node]
          omega
    · by_cases hlt : v < newValue
      · cases hic : insertCore newValue r with
        | mk r2 res =>
          cases res with
          | some x =>
            rw [insertCore_lt_some l h bf hgt hlt hic]
            exact ⟨by rw [wellFormed_node]; exact ⟨hwl, hwr, hh, hbf, hb1, hb2⟩,
              Or.inl rfl⟩
          | none =>
            rw [insertCore_lt_none l h bf hgt hlt hic]
            have ih := ihr hwr
            rw [hic] at ih
            dsimp only at ih
            obtain ⟨hwr2, hgrow⟩ := ih
            obtain ⟨hwf, hht⟩ :=
              balance_update_wf v h bf hwl hwr2 (by omega) (by omega)
            refine ⟨hwf, ?_⟩
            simp only [realHeight_node]
            omega
      · rw [insertCore_found l r h bf hgt hlt]
        exact ⟨by rw [wellFormed_node]; exact ⟨hwl, hwr, hh, hbf, hb1, hb2⟩,
          Or.inl rfl⟩

theorem insertCore_some_eq (newValue : α) (t : Node α) :
    ∀ {t2 : Node α} {x : α}, insertCore newValue t = (t2, some x) →
    t2 = t ∧ x = newValue ∧ newValue ∈ toList t := by
  induction t with
  | nil => intro t2 x hic; simp [insertCore] at hic
  | node v l r h bf ihl ihr =>
    intro t2 x hic
    by_cases hgt : v > newValue
    · cases hic2 : insertCore newValue l with
      | mk l2 res =>
        cases res with
        | none =>
          rw [insertCore_gt_none r h bf hgt hic2] at hic
          simp at hic
        | some y =>
          rw [insertCore_gt_some r h bf hgt hic2] at hic
          simp only [Prod.mk.injEq, Option.some.injEq] at hic
          obtain ⟨ht2, hx⟩ := hic
          obtain ⟨-, hy, hmem⟩ := ihl hic2
          exact ⟨ht2.symm, hx ▸ hy, by simp [toList, hmem]⟩
    · by_cases hlt : v < newValue
      · cases hic2 : insertCore newValue r with
        | mk r2 res =>
          cases res with
          | none =>
            rw [insertCore_lt_none l h bf hgt hlt hic2] at hic
            simp at hic
          | some y =>
            rw [insertCore_lt_some l h bf hgt hlt hic2] at hic
            simp only [Prod.mk.injEq, Option.some.injEq] at hic
            obtain ⟨ht2, hx⟩ := hic
            obtain ⟨-, hy, hmem⟩ := ihr hic2
            exact ⟨ht2.symm, hx ▸ hy, by simp [toList, hmem]⟩
      · rw [insertCore_found l r h bf hgt hlt] at hic
        simp only [Prod.mk.injEq, Option.some.injEq] at hic
        obtain ⟨ht2, hx⟩ := hic
        have hv : v = newValue := le_antisymm (not_lt.1 hgt) (not_lt.1 hlt)
        exact ⟨ht2.symm, hx ▸ hv, by simp [toList, hv]⟩

theorem insertCore_none_toList (newValue : α) (t : Node α) :
    ∀ {t2 : Node α}, insertCore newValue t = (t2, none) →
    ∀ x, x ∈ toList t2 ↔ x ∈ toList t ∨ x = newValue := by
  induction t with
  | nil =>
    intro t2 hic x
    simp only [insertCore, Prod.mk.injEq] at hic
    rw [← hic.1]
    simp [toList]
  | node v l r h bf ihl ihr =>
    intro t2 hic x
    by_cases hgt : v > newValue
    · cases hic2 : insertCore newValue l with
      | mk l2 res =>
        cases res with
        | some y =>
          rw [insertCore_gt_some r h bf hgt hic2] at hic
          simp at hic
        | none =>
          rw [insertCore_gt_none r h bf hgt hic2] at hic
          simp only [Prod.mk.injEq] at hic
          rw [← hic.1, toList_balance_update]
          have hmem := ihl hic2 x
          simp only [toList, List.mem_append, List.mem_cons] at hmem ⊢
          tauto
    · by_cases hlt : v < newValue
      · cases hic2 : insertCore newValue r with
        | mk r2 res =>
          cases res with
          | some y =>
            rw [insertCore_lt_some l h bf hgt hlt hic2] at hic
            simp at hic
          | none =>
            rw [insertCore_lt_none l h bf hgt hlt hic2] at hic
            simp only [Prod.mk.injEq] at hic
            rw [← hic.1, toList_balance_update]
            have hmem := ihr hic2 x
            simp only [toList, List.mem_append, List.mem_cons] at hmem ⊢
            tauto
      · rw [insertCore_found l r h bf hgt hlt] at hic
        simp at hic

theorem insertCore_ordered (newValue : α) (t : Node α) (ho : Ordered t) :
    Ordered (insertCore newValue t).1 := by
  induction t with
  | nil => simp [insertCore, ordered_node, Ordered, toList]
  | node v l r h bf ihl ihr =>
    rw [ordered_node] at ho
    obtain ⟨hbl, hbr, hol, hor⟩ := ho
    by_cases hgt : v > newValue
    · cases hic : insertCore newValue l with
      | mk l2 res =>
        cases res with
        | some x =>
          rw [insertCore_gt_some r h bf hgt hic]
          exact ordered_node.2 ⟨hbl, hbr, hol, hor⟩
        | none =>
          rw [insertCore_gt_none r h bf hgt hic]
          have hl2 := ihl hol
          rw [hic] at hl2
          have hmem := insertCore_none_toList newValue l hic
          rw [ordered_iff_pairwise, toList_balance_update, List.pairwise_append]
          refine ⟨(ordered_iff_pairwise l2).1 hl2, ?_, ?_⟩
          · rw [List.pairwise_cons]
            exact ⟨hbr, (ordered_iff_pairwise r).1 hor⟩
          · intro a ha b hb
            have ha2 : a < v := by
              rcases (hmem a).1 ha with h1 | h1
              · exact hbl a h1
              · exact h1 ▸ hgt
            rcases List.mem_cons.1 hb with rfl | hb2
            · exact ha2
            · exact lt_trans ha2 (hbr b hb2)
    · by_cases hlt : v < newValue
      · cases hic : insertCore newValue r with
        | mk r2 res =>
          cases res with
          | some x =>
            rw [insertCore_lt_some l h bf hgt hlt hic]
            exact ordered_node.2 ⟨hbl, hbr, hol, hor⟩
          | none =>
            rw [insertCore_lt_none l h bf hgt hlt hic]
            have hr2 := ihr hor
            rw [hic] at hr2
            have hmem := insertCore_none_toList newValue r hic
            rw [ordered_iff_pairwise, toList_balance_update, List.pairwise_append]
            refine ⟨(ordered_iff_pairwise l).1 hol, ?_, ?_⟩
            · rw [List.pairwise_cons]
              refine ⟨?_, (ordered_iff_pairwise r2).1 hr2⟩
              intro b hb
              rcases (hmem b).1 hb with h1 | h1
              · exact hbr b h1
              · exact h1 ▸ hlt
            · intro a ha b hb
              rcases List.mem_cons.1 hb with rfl | hb2
              · exact hbl a ha
              · have hb3 : v < b := by
                  rcases (hmem b).1 hb2 with h1 | h1
                  · exact hbr b h1
                  · exact h1 ▸ hlt
                exact lt_trans (hbl a ha) hb3
      · rw [insertCore_found l r h bf hgt hlt]
        exact ordered_node.2 ⟨hbl, hbr, hol, hor⟩

theorem bfOk_node {v : α} {l r : Node α} {h : Nat} {bf : Int} :
    bfOk (.node v l r h bf) ↔
      (bf = -1 ∨ bf = 0 ∨ bf = 1) ∧ bfOk l ∧ bfOk r := Iff.rfl

theorem bfOk_of_wellFormed (t : Node α) (hw : WellFormed t) : bfOk t := by
  induction t with
  | nil => trivial
  | node v l r h bf ihl ihr =>
    rw [wellFormed_node] at hw
    obtain ⟨hwl, hwr, -, -, hb1, hb2⟩ := hw
    exact bfOk_node.2 ⟨by omega, ihl hwl, ihr hwr⟩

theorem insert_preserves (tree : AVLTree α) (v : α)
    (hw : WellFormed tree.m_root) (ho : Ordered tree.m_root) :
    WellFormed ((tree.insert v).1).m_root ∧ Ordered ((tree.insert v).1).m_root := by
  cases hroot : tree.m_root with
  | nil =>
    obtain ⟨sz, root⟩ := tree
    dsimp only at hroot
    subst hroot
    simp only [AVLTree.insert]
    constructor
    · rw [wellFormed_node]
      refine ⟨trivial, trivial, ?_, ?_, ?_, ?_⟩ <;> simp [realHeight]
    · exact ordered_node.2 ⟨by simp [toList], by simp [toList], trivial, trivial⟩
  | node v0 l0 r0 h0 bf0 =>
    have hne : tree.m_root ≠ .nil := by rw [hroot]; simp
    rw [insert_eq_core tree v hne]
    cases hic : insertCore v tree.m_root with
    | mk t2 res =>
      cases res with
      | some x => exact ⟨hw, ho⟩
      | none =>
        have h1 := insertCore_wf v tree.m_root hw
        have h2 := insertCore_ordered v tree.m_root ho
        rw [hic] at h1 h2
        dsimp only at h1 h2 ⊢
        exact ⟨h1.1, h2⟩

theorem insertAll_aux (vs : List α) : ∀ (t : AVLTree α),
    WellFormed t.m_root ∧ Ordered t.m_root →
    WellFormed ((vs.foldl (fun t v => (t.insert v).1) t).m_root) ∧
      Ordered ((vs.foldl (fun t v => (t.insert v).1) t).m_root) := by
  induction vs with
  | nil => exact fun t hyp => hyp
  | cons v vs ih =>
    intro t hyp
    exact ih _ (insert_preserves t v hyp.1 hyp.2)

theorem insertAll_wf (vs : List α) :
    WellFormed (insertAll vs).m_root ∧ Ordered (insertAll vs).m_root :=
  insertAll_aux vs emptyAVLTree ⟨trivial, trivial⟩

/-! ## Lookup -/

theorem findLoop_mem (value : α) (t : Node α) (ho : Ordered t)
    (hmem : value ∈ toList t) : findLoop t value = some value := by
  induction t with
  | nil => simp [toList] at hmem
  | node v l r h bf ihl ihr =>
    rw [ordered_node] at ho
    obtain ⟨hbl, hbr, hol, hor⟩ := ho
    simp only [toList, List.mem_append, List.mem_cons] at hmem
    by_cases hgt : v > value
    · have hmem2 : value ∈ toList l := by
        rcases hmem with h1 | h1 | h1
        · exact h1
        · exact absurd (h1 ▸ hgt) (lt_irrefl _)
        · exact ((lt_asymm hgt) (hbr _ h1)).elim
      simp [findLoop, hgt, ihl hol hmem2]
    · by_cases hlt : v < value
      · have hmem2 : value ∈ toList r := by
          rcases hmem with h1 | h1 | h1
          · exact ((lt_asymm hlt) (hbl _ h1)).elim
          · exact absurd (h1 ▸ hlt) (lt_irrefl _)
          · exact h1
        simp [findLoop, hgt, hlt, ihr hor hmem2]
      · have hv : v = value := le_antisymm (not_lt.1 hgt) (not_lt.1 hlt)
        simp [findLoop, hgt, hlt, hv]

theorem findLoop_not_mem (value : α) (t : Node α) (ho : Ordered t)
    (hmem : value ∉ toList t) : findLoop t value = none := by
  induction t with
  | nil => rfl
  | node v l r h bf ihl ihr =>
    rw [ordered_node] at ho
    obtain ⟨hbl, hbr, hol, hor⟩ := ho
    simp only [toList, List.mem_append, List.mem_cons, not_or] at hmem
    obtain ⟨hm1, hm2, hm3⟩ := hmem
    by_cases hgt : v > value
    · simp [findLoop, hgt, ihl hol hm1]
    · by_cases hlt : v < value
      · simp [findLoop, hgt, hlt, ihr hor hm3]
      · exact absurd (le_antisymm (not_lt.1 hgt) (not_lt.1 hlt)).symm hm2

theorem findConstLoop_eq (t : Node α) (value : α) :
    findConstLoop t value = findLoop t value := by
  induction t with
  | nil => rfl
  | node v l r h bf ihl ihr => simp [findConstLoop, findLoop, ihl, ihr]

/-! ## Duplicate insertion -/

theorem insertCore_dup (newValue : α) (t : Node α) (ho : Ordered t)
    (hmem : newValue ∈ toList t) :
    insertCore newValue t = (t, some newValue) := by
  induction t with
  | nil => simp [toList] at hmem
  | node v l r h bf ihl ihr =>
    rw [ordered_node] at ho
    obtain ⟨hbl, hbr, hol, hor⟩ := ho
    simp only [toList, List.mem_append, List.mem_cons] at hmem
    by_cases hgt : v > newValue
    · have hmem2 : newValue ∈ toList l := by
        rcases hmem with h1 | h1 | h1
        · exact h1
        · exact absurd (h1 ▸ hgt) (lt_irrefl _)
        · exact ((lt_asymm hgt) (hbr _ h1)).elim
      exact insertCore_gt_some r h bf hgt (ihl hol hmem2)
    · by_cases hlt : v < newValue
      · have hmem2 : newValue ∈ toList r := by
          rcases hmem with h1 | h1 | h1
          · exact ((lt_asymm hlt) (hbl _ h1)).elim
          · exact absurd (h1 ▸ hlt) (lt_irrefl _)
          · exact h1
        exact insertCore_lt_some l h bf hgt hlt (ihr hor hmem2)
      · have hv : v = newValue := le_antisymm (not_lt.1 hgt) (not_lt.1 hlt)
        rw [insertCore_found l r h bf hgt hlt, hv]

/-! ## The remove error path -/

theorem pathToSlot_not_found (value : α) (t : Node α) (ho : Ordered t)
    (hmem : value ∉ toList t) :
    ∀ frames : List (Frame α), (pathToSlot value t frames).2 = .nil := by
  induction t with
  | nil => intro frames; rfl
  | node v l r h bf ihl ihr =>
    intro frames
    rw [ordered_node] at ho
    obtain ⟨hbl, hbr, hol, hor⟩ := ho
    simp only [toList, List.mem_append, List.mem_cons, not_or] at hmem
    obtain ⟨hm1, hm2, hm3⟩ := hmem
    by_cases hgt : v > value
    · rw [pathToSlot_gt l r h bf frames hgt]
      exact ihl hol hm1 _
    · by_cases hlt : v < value
      · rw [pathToSlot_lt l r h bf frames hgt hlt]
        exact ihr hor hm3 _
      · exact absurd (le_antisymm (not_lt.1 hgt) (not_lt.1 hlt)).symm hm2

theorem pathToSlot_found_mem (value : α) (t : Node α) (ho : Ordered t)
    (hmem : value ∈ toList t) :
    ∀ frames : List (Frame α), ∃ l2 r2 h2 bf2,
      (pathToSlot value t frames).2 = .node value l2 r2 h2 bf2 := by
  induction t with
  | nil => simp [toList] at hmem
  | node v l r h bf ihl ihr =>
    intro frames
    rw [ordered_node] at ho
    obtain ⟨hbl, hbr, hol, hor⟩ := ho
    simp only [toList, List.mem_append, List.mem_cons] at hmem
    by_cases hgt : v > value
    · have hmem2 : value ∈ toList l := by
        rcases hmem with h1 | h1 | h1
        · exact h1
        · exact absurd (h1 ▸ hgt) (lt_irrefl _)
        · exact ((lt_asymm hgt) (hbr _ h1)).elim
      rw [pathToSlot_gt l r h bf frames hgt]
      exact ihl hol hmem2 _
    · by_cases hlt : v < value
      · have hmem2 : value ∈ toList r := by
          rcases hmem with h1 | h1 | h1
          · exact ((lt_asymm hlt) (hbl _ h1)).elim
          · exact absurd (h1 ▸ hlt) (lt_irrefl _)
          · exact h1
        rw [pathToSlot_lt l r h bf frames hgt hlt]
        exact ihr hor hmem2 _
      · have hv : v = value := le_antisymm (not_lt.1 hgt) (not_lt.1 hlt)
        rw [pathToSlot_found l r h bf frames hgt hlt]
        exact ⟨l, r, h, bf, by rw [hv]⟩

theorem remove_not_found (tree : AVLTree α) (value : α) (ho : Ordered tree.m_root)
    (hmem : value ∉ toList tree.m_root) :
    tree.remove value =
      (tree, .error "AVLTree remove(), cannot remove value, value does not exist") := by
  have htop := pathToSlot_not_found value tree.m_root ho hmem []
  cases hp : pathToSlot value tree.m_root [] with
  | mk fs top =>
    rw [hp] at htop
    dsimp only at htop
    subst htop
    simp [AVLTree.remove, hp]

theorem remove_found_ok (tree : AVLTree α) (value : α) (ho : Ordered tree.m_root)
    (hmem : value ∈ toList tree.m_root) :
    ∃ t2 : AVLTree α, tree.remove value = (t2, .ok value) := by
  obtain ⟨l2, r2, h2, bf2, htop⟩ := pathToSlot_found_mem value tree.m_root ho hmem []
  cases hp : pathToSlot value tree.m_root [] with
  | mk fs top =>
    rw [hp] at htop
    dsimp only at htop
    subst htop
    simp only [AVLTree.remove, hp]
    exact ⟨_, rfl⟩

/-! ## The descent chain of stackNodes -/

/-- One legal step of the Path Locator chain: `parent` is a real node and
`child` is the child its comparison with the target selects. -/
def descentStep (value : α) (child parent : Node α) : Prop :=
  ∃ w l r h bf, parent = .node w l r h bf ∧
    ((w > value ∧ child = l) ∨ (w < value ∧ child = r))

theorem stackNodesLoop_shape (value : α) (t : Node α) :
    ∀ acc : List (Node α), ∃ ds, stackNodesLoop value t acc = ds ++ t :: acc := by
  induction t with
  | nil => exact fun acc => ⟨[], rfl⟩
  | node v l r h bf ihl ihr =>
    intro acc
    by_cases hgt : v > value
    · obtain ⟨ds, hds⟩ := ihl (Node.node v l r h bf :: acc)
      exact ⟨ds ++ [l], by simp [stackNodesLoop, hgt, hds]⟩
    · by_cases hlt : v < value
      · obtain ⟨ds, hds⟩ := ihr (Node.node v l r h bf :: acc)
        exact ⟨ds ++ [r], by simp [stackNodesLoop, hgt, hlt, hds]⟩
      · exact ⟨[], by simp [stackNodesLoop, hgt, hlt]⟩

theorem stackNodesLoop_head (value : α) (t : Node α) :
    ∀ acc : List (Node α), ∃ hd tl, stackNodesLoop value t acc = hd :: tl ∧
      (hd = .nil ∨ ∃ l r h bf, hd = .node value l r h bf) := by
  induction t with
  | nil => exact fun acc => ⟨.nil, acc, rfl, Or.inl rfl⟩
  | node v l r h bf ihl ihr =>
    intro acc
    by_cases hgt : v > value
    · obtain ⟨hd, tl, heq, hprop⟩ := ihl (Node.node v l r h bf :: acc)
      exact ⟨hd, tl, by simp [stackNodesLoop, hgt, heq], hprop⟩
    · by_cases hlt : v < value
      · obtain ⟨hd, tl, heq, hprop⟩ := ihr (Node.node v l r h bf :: acc)
        exact ⟨hd, tl, by simp [stackNodesLoop, hgt, hlt, heq], hprop⟩
      · have hv : v = value := le_antisymm (not_lt.1 hgt) (not_lt.1 hlt)
        exact ⟨.node v l r h bf, acc, by simp [stackNodesLoop, hgt, hlt],
          Or.inr ⟨l, r, h, bf, by rw [hv]⟩⟩

theorem stackNodesLoop_chain (value : α) (t : Node α) :
    ∀ acc : List (Node α), List.Chain' (descentStep value) (t :: acc) →
      List.Chain' (descentStep value) (stackNodesLoop value t acc) := by
  induction t with
  | nil => exact fun acc hc => hc
  | node v l r h bf ihl ihr =>
    intro acc hchain
    by_cases hgt : v > value
    · rw [show stackNodesLoop value (.node v l r h bf) acc
          = stackNodesLoop value l (.node v l r h bf :: acc) from by
        simp [stackNodesLoop, hgt]]
      exact ihl _ (List.chain'_cons.2
        ⟨⟨v, l, r, h, bf, rfl, Or.inl ⟨hgt, rfl⟩⟩, hchain⟩)
    · by_cases hlt : v < value
      · rw [show stackNodesLoop value (.node v l r h bf) acc
            = stackNodesLoop value r (.node v l r h bf :: acc) from by
          simp [stackNodesLoop, hgt, hlt]]
        exact ihr _ (List.chain'_cons.2
          ⟨⟨v, l, r, h, bf, rfl, Or.inr ⟨hlt, rfl⟩⟩, hchain⟩)
      · rw [show stackNodesLoop value (.node v l r h bf) acc
            = .node v l r h bf :: acc from by simp [stackNodesLoop, hgt, hlt]]
        exact hchain

/-! ## Claim theorems -/

/-- Claim C1: the claim says inserting a value into an empty tree makes it
the sole root, reports a successful insertion (no pre-existing reference)
and makes `size` 1.  The code does make the value the sole root and returns
`nullptr`, but the empty-tree branch of `insert` (src lines 103-107) returns
before the `++m_size` at src line 130 ever runs, so `size()` stays 0 — the
code contradicts the claim's (and the spec's) size clause at this input. -/
theorem insert_empty_size_bug :
    ((emptyAVLTree : AVLTree Int).insert 5).1.m_root = .node 5 .nil .nil 0 0 ∧
    ((emptyAVLTree : AVLTree Int).insert 5).2 = none ∧
    ((emptyAVLTree : AVLTree Int).insert 5).1.size = 0 := by
  exact ⟨rfl, rfl, rfl⟩

/-- Claim C2: the claim says that after every completed public operation
`size()` equals the node count and `empty()` holds iff `size() == 0` iff the
root is absent.  After the single operation `insert 5` on an empty tree the
code gives `size() = 0` while the tree holds one node, and `empty() = false`
while `size() == 0` — both biconditionals fail because the empty-tree branch
of `insert` skips `++m_size`. -/
theorem size_desync_bug :
    ((emptyAVLTree : AVLTree Int).insert 5).1.size = 0 ∧
    countNodes ((emptyAVLTree : AVLTree Int).insert 5).1.m_root = 1 ∧
    ((emptyAVLTree : AVLTree Int).insert 5).1.empty = false := by
  exact ⟨rfl, rfl, rfl⟩

/-- Claim C3: for every tree produced by a sequence of public `insert` calls
starting from the empty tree, every node's stored `balanceFactor` lies in
`{-1, 0, 1}` once the operation completes. -/
theorem insertAll_balanceFactors (vs : List α) : bfOk (insertAll vs).m_root :=
  bfOk_of_wellFormed _ (insertAll_wf vs).1

/-- Claim C4: for every tree produced by a sequence of public `insert` calls
starting from the empty tree, the in-order traversal is strictly
increasing (binary-search-tree order holds at every node). -/
theorem insertAll_sorted (vs : List α) :
    (toList (insertAll vs).m_root).Sorted (· < ·) :=
  (ordered_iff_pairwise _).1 (insertAll_wf vs).2

/-- Claim C5: on every search-ordered tree, removing a value that is not
present (including from the empty tree) raises the "value not found" error
and leaves the tree — structure and `m_size` — exactly as it was (the throw
at src lines 141-143 happens before any mutation), while removing a present
value succeeds, returning the stored value: the not-found case is the one
error condition. -/
theorem remove_error_iff (tree : AVLTree α) (value : α)
    (ho : Ordered tree.m_root) :
    (value ∉ toList tree.m_root →
      tree.remove value =
        (tree,
         .error "AVLTree remove(), cannot remove value, value does not exist")) ∧
    (value ∈ toList tree.m_root →
      ∃ t2, tree.remove value = (t2, .ok value)) :=
  ⟨fun hmem => remove_not_found tree value ho hmem,
   fun hmem => remove_found_ok tree value ho hmem⟩

theorem remove_error_iff_witness :
    (insertAll ([1, 2, 3] : List Int)).remove 9
      = (insertAll ([1, 2, 3] : List Int),
         .error "AVLTree remove(), cannot remove value, value does not exist") :=
  (remove_error_iff (insertAll ([1, 2, 3] : List Int)) 9 (by decide)).1 (by decide)

/-- Claim C6: inserting a value already stored in a (necessarily non-empty)
search-ordered tree makes no structural change, leaves `m_size` unchanged,
and returns a pointer to the stored value, which equals the inserted one. -/
theorem insert_duplicate_noop (tree : AVLTree α) (v : α)
    (ho : Ordered tree.m_root) (hmem : v ∈ toList tree.m_root) :
    tree.insert v = (tree, some v) := by
  have hne : tree.m_root ≠ .nil := by
    cases hr : tree.m_root
    · rw [hr] at hmem; simp [toList] at hmem
    · simp
  rw [insert_eq_core tree v hne, insertCore_dup v tree.m_root ho hmem]

theorem insert_duplicate_noop_witness :
    (insertAll ([2, 1] : List Int)).insert 1
      = (insertAll ([2, 1] : List Int), some 1) :=
  insert_duplicate_noop (insertAll ([2, 1] : List Int)) 1 (by decide) (by decide)

/-- Claim C7: inserting 10, then 20, then 30 into an empty tree triggers the
right-right left rotation and yields the tree rooted at 20 with left child
10 and right child 30, every stored `balanceFactor` 0 (the root's stored
height is 1, the leaves' 0). -/
theorem insert_10_20_30 :
    (insertAll ([10, 20, 30] : List Int)).m_root
      = .node 20 (.node 10 .nil .nil 0 0) (.node 30 .nil .nil 0 0) 1 0 := by
  decide

/-- Claim C8: on every search-ordered tree, `find` returns (a pointer to)
the stored value when the target is present and `nullptr` when it is not,
and the `const` overload computes exactly the same answer; both are pure
functions of the tree in this embedding (the loops only read fields), so the
tree is not mutated. -/
theorem find_spec (tree : AVLTree α) (value : α) (ho : Ordered tree.m_root) :
    (value ∈ toList tree.m_root → tree.find value = some value) ∧
    (value ∉ toList tree.m_root → tree.find value = none) ∧
    tree.findConst value = tree.find value :=
  ⟨fun hmem => findLoop_mem value tree.m_root ho hmem,
   fun hmem => findLoop_not_mem value tree.m_root ho hmem,
   findConstLoop_eq tree.m_root value⟩

theorem find_spec_witness :
    (insertAll ([1, 2] : List Int)).find 2 = some 2 :=
  (find_spec (insertAll ([1, 2] : List Int)) 2 (by decide)).1 (by decide)

/-- Claim C9: `stackNodes` returns the ancestor chain of the descent from
the root: the returned stack is non-empty, its bottom (`getLast?`) is the
root, consecutive entries are linked by the comparison-directed child step,
and the top is either the matching node (its stored value is the target) or
the null slot where the value would be inserted.  The frame part of the
claim — the tree is left entirely unchanged — holds by construction: the
embedding of the read-only C++ body is a pure function `stackNodes` of the
tree, which the caller keeps untouched. -/
theorem stackNodes_spec (tree : AVLTree α) (value : α) :
    ∃ hd tl, tree.stackNodes value = hd :: tl ∧
      (hd :: tl).getLast? = some tree.m_root ∧
      List.Chain' (descentStep value) (hd :: tl) ∧
      (hd = .nil ∨ ∃ l r h bf, hd = .node value l r h bf) := by
  obtain ⟨hd, tl, heq, hprop⟩ := stackNodesLoop_head value tree.m_root []
  refine ⟨hd, tl, heq, ?_, ?_, hprop⟩
  · obtain ⟨ds, hds⟩ := stackNodesLoop_shape value tree.m_root []
    rw [← heq, hds]
    exact List.getLast?_concat _
  · rw [← heq]
    exact stackNodesLoop_chain value tree.m_root [] (List.chain'_singleton _)

/-- Claim C10: the rotation primitives enforce their precondition with
guards instead of undefined behaviour: `rightRotation` on a null node or on
a node with no left child, and `leftRotation` on a null node or on a node
with no right child, return with the tree unmodified (src lines 319-323 and
353-357). -/
theorem rotation_guards :
    (rightRotation (.nil : Node α) = .nil) ∧
    (∀ (v : α) (r : Node α) (h : Nat) (bf : Int),
      rightRotation (.node v .nil r h bf) = .node v .nil r h bf) ∧
    (leftRotation (.nil : Node α) = .nil) ∧
    (∀ (v : α) (l : Node α) (h : Nat) (bf : Int),
      leftRotation (.node v l .nil h bf) = .node v l .nil h bf) :=
  ⟨rfl, fun _ _ _ _ => rfl, rfl, fun _ _ _ _ => rfl⟩

end AVLVerif
